import Mathlib

/-!
Shallow embedding of `Software_Fifo_Exercise_Win.cpp` (Calmholm/FlyweightFifo):
a fixed-capacity circular-buffer FIFO with an insertion index, an extraction
index, a `volatile unsigned` population counter, a critical-section mutex and
a manual-reset "data available" event.

The sequential definitions (`Fifo.push`, `Fifo.pop_try`, `Fifo.pop`) model a
serialized execution (the lock is uncontended and no other thread runs inside
an operation), which is the setting of the functional claims.  The two-producer
race over the last free slot is modelled separately by a small-step interleaving
semantics (`raceStep` / `raceRun`) that follows the source line by line.
-/

set_option maxRecDepth 8192

/-- 2^32: the modulus of the C++ `unsigned` arithmetic used for `population`. -/
def U32 : Nat := 4294967296

/-- Unsigned increment: `population++` on a 32-bit `unsigned`. -/
def uinc (n : Nat) : Nat := (n + 1) % U32

/-- Unsigned decrement: `population--` on a 32-bit `unsigned` (wraps at 0). -/
def udec (n : Nat) : Nat := (n + (U32 - 1)) % U32

/-- The status codes returned by the fifo functions (the `FIFO_STATUS_*`
defines at lines 220-224 of the source). -/
inductive FifoStatus where
  | Success
  | Full
  | Empty
  | Locked
  | Preempted
deriving DecidableEq, Repr

/-- The numeric value of each status, matching the `#define` constants. -/
def FifoStatus.toUnsigned : FifoStatus → Nat
  | .Success => 0
  | .Full => 1
  | .Empty => 2
  | .Locked => 3
  | .Preempted => 4

/-- The state of `Fifo<T, capacity>` (lines 238-258 of the source):
the `items` array, the two indices, the `population` counter and the
manual-reset `DataAvailableEvent` (`true` iff signaled). In every state the
program ever produces the indices are `< capacity`, so they are carried as
`Fin capacity`. -/
structure Fifo (T : Type) (capacity : Nat) where
  items : Fin capacity → T
  InsertionIndex : Fin capacity
  ExtractionIndex : Fin capacity
  population : Nat
  DataAvailableEvent : Bool

variable {T : Type} {capacity : Nat}

/-- `(i + 1) % capacity`: the index bump at lines 308 and 344/385. -/
def bumpIndex [NeZero capacity] (i : Fin capacity) : Fin capacity :=
  ⟨(i.val + 1) % capacity, Nat.mod_lt _ (Nat.pos_of_ne_zero (NeZero.ne capacity))⟩

/-- The constructor (line 255-261): both indices 0, population 0, event not
signaled (`CreateEvent(..., FALSE, ...)`).  The `items` array is left
uninitialized by the C++ code, so the initial array is a parameter. -/
def Fifo.init [NeZero capacity] (items0 : Fin capacity → T) : Fifo T capacity :=
  { items := items0
    InsertionIndex := ⟨0, Nat.pos_of_ne_zero (NeZero.ne capacity)⟩
    ExtractionIndex := ⟨0, Nat.pos_of_ne_zero (NeZero.ne capacity)⟩
    population := 0
    DataAvailableEvent := false }

/-- `Fifo::push` (lines 271-319) in a serialized execution: the
`TryEnterCriticalSection` at line 287 succeeds (no other thread holds the
mutex), and no other thread runs between the full test at line 282 and the
re-test at line 295, so the re-test (kept here for faithfulness) is dead.
Returns the status together with the state after the call. -/
def Fifo.push [NeZero capacity] (q : Fifo T capacity) (item : T) :
    FifoStatus × Fifo T capacity :=
  -- line 282: if (population >= capacity) return FIFO_STATUS_FULL
  if capacity ≤ q.population then (.Full, q)
  else
    -- line 295: re-test after acquiring the mutex
    if capacity ≤ q.population then (.Preempted, q)
    else
      -- lines 306-315: store, bump insertion index, population++, SetEvent
      (.Success,
        { q with
          items := fun j => if j = q.InsertionIndex then item else q.items j
          InsertionIndex := bumpIndex q.InsertionIndex
          population := uinc q.population
          DataAvailableEvent := true })

/-- `Fifo::pop_try` (lines 322-359).  `itemVal` is the content of `*itemPtr`
before the call; the middle component of the result is the content of
`*itemPtr` after the call (written only on the success path, line 342). -/
def Fifo.pop_try [NeZero capacity] (q : Fifo T capacity) (itemVal : T) :
    FifoStatus × T × Fifo T capacity :=
  -- line 333: if (population == 0) return FIFO_STATUS_EMPTY
  if q.population = 0 then (.Empty, itemVal, q)
  else
    -- lines 342-355: read slot, bump extraction index, population--,
    -- ResetEvent if now empty
    (.Success, q.items q.ExtractionIndex,
      { q with
        ExtractionIndex := bumpIndex q.ExtractionIndex
        population := udec q.population
        DataAvailableEvent :=
          if udec q.population = 0 then false else q.DataAvailableEvent })

/-- `Fifo::pop` (lines 362-397) in a serialized execution.  Line 373 waits on
the manual-reset event when `population == 0`; in a serialized trace no
producer can signal it later, so the call blocks forever (`none`) exactly when
`population == 0` and the event is not already signaled.  Otherwise the wait
returns (or is skipped) and lines 383-392 dequeue unconditionally - the code
performs no re-check of `population` after the wait. -/
def Fifo.pop [NeZero capacity] (q : Fifo T capacity) :
    Option (T × Fifo T capacity) :=
  if q.population = 0 ∧ q.DataAvailableEvent = false then none
  else
    some (q.items q.ExtractionIndex,
      { q with
        ExtractionIndex := bumpIndex q.ExtractionIndex
        population := udec q.population
        DataAvailableEvent :=
          if udec q.population = 0 then false else q.DataAvailableEvent })

/-- `Fifo::getPopulation` (lines 402-404). -/
def Fifo.getPopulation (q : Fifo T capacity) : Nat := q.population

/-! ### Arithmetic facts about the unsigned counter -/

theorem uinc_eq {n : Nat} (h : n + 1 < U32) : uinc n = n + 1 :=
  Nat.mod_eq_of_lt h

theorem udec_eq {n : Nat} (h0 : 0 < n) (h : n < U32) : udec n = n - 1 := by
  unfold udec
  have h1 : n + (U32 - 1) = (n - 1) + 1 * U32 := by unfold U32 at *; omega
  rw [h1, Nat.add_mul_mod_self_right, Nat.mod_eq_of_lt (by unfold U32 at *; omega)]

theorem udec_zero : udec 0 = U32 - 1 := by decide

/-- Injectivity of `k ↦ (e + k) % capacity` on `[0, capacity)`. -/
theorem add_mod_inj {capacity e k l : Nat} (hk : k < capacity) (hl : l < capacity)
    (h : (e + k) % capacity = (e + l) % capacity) : k = l := by
  have h2 : k ≡ l [MOD capacity] := Nat.ModEq.add_left_cancel' e h
  have h3 : k % capacity = l % capacity := h2
  rwa [Nat.mod_eq_of_lt hk, Nat.mod_eq_of_lt hl] at h3

/-! ### Abstract contents and the structural invariant -/

/-- The slot of a capacity-sized array at absolute offset `n` (reduced modulo
the capacity). -/
def circSlot [NeZero capacity] (its : Fin capacity → T) (n : Nat) : T :=
  its ⟨n % capacity, Nat.mod_lt _ (Nat.pos_of_ne_zero (NeZero.ne capacity))⟩

/-- The circular range of length `p` starting at offset `e`. -/
def circList [NeZero capacity] (its : Fin capacity → T) (e p : Nat) : List T :=
  (List.range p).map fun k => circSlot its (e + k)

/-- The live contents of the fifo, oldest first: the circular range of length
`population` starting at `ExtractionIndex` (the invariant of spec section 3). -/
def Fifo.contents [NeZero capacity] (q : Fifo T capacity) : List T :=
  circList q.items q.ExtractionIndex.val q.population

/-- The structural invariant of every state the program can produce:
the population is within capacity, the insertion index is the extraction
index advanced by the population, and the event is not signaled when the
fifo is empty (in a serialized trace). -/
def Fifo.Inv [NeZero capacity] (q : Fifo T capacity) : Prop :=
  q.population ≤ capacity ∧
  q.InsertionIndex.val = (q.ExtractionIndex.val + q.population) % capacity ∧
  (q.population = 0 → q.DataAvailableEvent = false)

theorem Fifo.init_Inv [NeZero capacity] (items0 : Fin capacity → T) :
    (Fifo.init items0).Inv := by
  refine ⟨Nat.zero_le _, ?_, fun _ => rfl⟩
  simp [Fifo.init]

theorem contents_init [NeZero capacity] (items0 : Fin capacity → T) :
    (Fifo.init items0).contents = [] := by
  simp [Fifo.contents, Fifo.init, circList]

/-! ### The success and failure paths of push and pop_try -/

theorem push_full [NeZero capacity] (q : Fifo T capacity) (v : T)
    (h : capacity ≤ q.population) : q.push v = (.Full, q) := by
  simp [Fifo.push, h]

theorem push_not_full [NeZero capacity] (q : Fifo T capacity) (v : T)
    (h : q.population < capacity) :
    q.push v = (.Success,
      { q with
        items := fun j => if j = q.InsertionIndex then v else q.items j
        InsertionIndex := bumpIndex q.InsertionIndex
        population := uinc q.population
        DataAvailableEvent := true }) := by
  simp [Fifo.push, Nat.not_le.mpr h]

theorem popTry_empty [NeZero capacity] (q : Fifo T capacity) (x : T)
    (h : q.population = 0) : q.pop_try x = (.Empty, x, q) := by
  simp [Fifo.pop_try, h]

theorem popTry_nonempty [NeZero capacity] (q : Fifo T capacity) (x : T)
    (h : 0 < q.population) :
    q.pop_try x = (.Success, q.items q.ExtractionIndex,
      { q with
        ExtractionIndex := bumpIndex q.ExtractionIndex
        population := udec q.population
        DataAvailableEvent :=
          if udec q.population = 0 then false else q.DataAvailableEvent }) := by
  simp [Fifo.pop_try, Nat.pos_iff_ne_zero.mp h]

/-- On a nonempty fifo the blocking `pop` takes exactly the dequeue path of
`pop_try` : same returned item, same resulting state. -/
theorem pop_agrees_popTry [NeZero capacity] (q : Fifo T capacity) (x : T)
    (h : 0 < q.population) :
    q.pop = some ((q.pop_try x).2.1, (q.pop_try x).2.2) := by
  have hne : ¬ q.population = 0 := Nat.pos_iff_ne_zero.mp h
  simp [Fifo.pop, Fifo.pop_try, hne]

/-! ### How push and pop_try transform the abstract contents -/

theorem bumpIndex_val [NeZero capacity] (i : Fin capacity) :
    (bumpIndex i).val = (i.val + 1) % capacity := rfl

theorem circSlot_congr [NeZero capacity] (its : Fin capacity → T) {a b : Nat}
    (h : a % capacity = b % capacity) : circSlot its a = circSlot its b :=
  congrArg its (Fin.ext h)

theorem circList_append [NeZero capacity] (its : Fin capacity → T) (e p : Nat) :
    circList its e (p + 1) = circList its e p ++ [circSlot its (e + p)] := by
  unfold circList
  rw [List.range_succ, List.map_append, List.map_cons, List.map_nil]

theorem circList_cons [NeZero capacity] (its : Fin capacity → T) (e p : Nat) :
    circList its e (p + 1) =
      circSlot its e :: circList its ((e + 1) % capacity) p := by
  unfold circList
  rw [List.range_succ_eq_map, List.map_cons, List.map_map]
  refine congrArg₂ _ (circSlot_congr its (by rw [Nat.add_zero])) ?_
  refine List.map_congr_left ?_
  intro k hk
  show circSlot its (e + Nat.succ k) = circSlot its ((e + 1) % capacity + k)
  refine circSlot_congr its ?_
  conv_rhs => rw [Nat.mod_add_mod]
  rw [show e + Nat.succ k = e + 1 + k by omega]

theorem circList_update_ne [NeZero capacity] (its : Fin capacity → T) (v : T)
    (e p : Nat) {j : Nat} (hj : j < capacity)
    (hne : ∀ k, k < p → (e + k) % capacity ≠ j) :
    circList (fun i => if i = ⟨j, hj⟩ then v else its i) e p =
      circList its e p := by
  unfold circList
  refine List.map_congr_left ?_
  intro k hk
  rw [List.mem_range] at hk
  show (if _ = (⟨j, hj⟩ : Fin capacity) then v else _) = _
  rw [if_neg]
  · rfl
  · intro heq
    exact hne k hk (congrArg Fin.val heq)

theorem circSlot_update_self [NeZero capacity] (its : Fin capacity → T) (v : T)
    {n j : Nat} (hj : j < capacity) (h : n % capacity = j) :
    circSlot (fun i => if i = ⟨j, hj⟩ then v else its i) n = v := by
  show (if _ = (⟨j, hj⟩ : Fin capacity) then v else _) = v
  rw [if_pos (Fin.ext h)]

/-- A successful push appends the pushed item to the abstract contents. -/
theorem contents_push [NeZero capacity] (q : Fifo T capacity) (v : T)
    (hInv : q.Inv) (h : q.population < capacity) (h32 : capacity < U32) :
    ((q.push v).2).contents = q.contents ++ [v] := by
  obtain ⟨hle, hidx, -⟩ := hInv
  rw [push_not_full q v h]
  show circList (fun j => if j = q.InsertionIndex then v else q.items j)
      q.ExtractionIndex.val (uinc q.population) =
    circList q.items q.ExtractionIndex.val q.population ++ [v]
  rw [uinc_eq (by unfold U32 at *; omega), circList_append]
  have hI : (⟨q.InsertionIndex.val, q.InsertionIndex.isLt⟩ : Fin capacity) =
      q.InsertionIndex := rfl
  rw [show (fun j => if j = q.InsertionIndex then v else q.items j) =
      (fun j => if j = (⟨q.InsertionIndex.val, q.InsertionIndex.isLt⟩ : Fin capacity)
        then v else q.items j) from by rw [hI]]
  rw [circList_update_ne q.items v _ _ q.InsertionIndex.isLt ?hne,
    circSlot_update_self q.items v q.InsertionIndex.isLt hidx.symm]
  case hne =>
    intro k hk heq
    rw [hidx] at heq
    have := add_mod_inj (Nat.lt_of_lt_of_le hk hle) h heq
    omega

/-- A successful push preserves the structural invariant. -/
theorem push_Inv [NeZero capacity] (q : Fifo T capacity) (v : T)
    (hInv : q.Inv) (h32 : capacity < U32) : ((q.push v).2).Inv := by
  by_cases h : capacity ≤ q.population
  · rw [push_full q v h]; exact hInv
  · rw [push_not_full q v (Nat.not_le.mp h)]
    obtain ⟨hle, hidx, hev⟩ := hInv
    have hpop1 : uinc q.population = q.population + 1 :=
      uinc_eq (by unfold U32 at *; omega)
    refine ⟨?_, ?_, ?_⟩
    · show uinc q.population ≤ capacity
      omega
    · show (bumpIndex q.InsertionIndex).val =
        (q.ExtractionIndex.val + uinc q.population) % capacity
      rw [bumpIndex_val, hpop1, hidx, Nat.mod_add_mod, Nat.add_assoc]
    · intro h0
      exact absurd (hpop1.symm.trans h0) (Nat.succ_ne_zero _)

/-- A successful pop_try removes the head of the abstract contents. -/
theorem contents_popTry [NeZero capacity] (q : Fifo T capacity) (x : T)
    (hle : q.population ≤ capacity) (h : 0 < q.population) (h32 : capacity < U32) :
    q.contents = q.items q.ExtractionIndex :: ((q.pop_try x).2.2).contents := by
  rw [popTry_nonempty q x h]
  show circList q.items q.ExtractionIndex.val q.population =
    q.items q.ExtractionIndex ::
      circList q.items (bumpIndex q.ExtractionIndex).val (udec q.population)
  rw [bumpIndex_val, udec_eq h (by unfold U32 at *; omega)]
  obtain ⟨m, hm⟩ : ∃ m, q.population = m + 1 :=
    ⟨q.population - 1, by omega⟩
  rw [hm, Nat.add_sub_cancel, circList_cons]
  have hhead : circSlot q.items q.ExtractionIndex.val = q.items q.ExtractionIndex :=
    congrArg q.items (Fin.ext (Nat.mod_eq_of_lt q.ExtractionIndex.isLt))
  rw [hhead]

/-- A successful pop_try preserves the structural invariant. -/
theorem popTry_Inv [NeZero capacity] (q : Fifo T capacity) (x : T)
    (hInv : q.Inv) (h32 : capacity < U32) : ((q.pop_try x).2.2).Inv := by
  by_cases h : q.population = 0
  · rw [popTry_empty q x h]; exact hInv
  · have hpos : 0 < q.population := Nat.pos_of_ne_zero h
    rw [popTry_nonempty q x hpos]
    obtain ⟨hle, hidx, hev⟩ := hInv
    have hdec : udec q.population = q.population - 1 :=
      udec_eq hpos (by unfold U32 at *; omega)
    refine ⟨?_, ?_, ?_⟩
    · show udec q.population ≤ capacity
      omega
    · show q.InsertionIndex.val =
        ((bumpIndex q.ExtractionIndex).val + udec q.population) % capacity
      rw [bumpIndex_val, hdec, hidx, Nat.mod_add_mod,
        show q.ExtractionIndex.val + 1 + (q.population - 1) =
          q.ExtractionIndex.val + q.population from by omega]
    · dsimp only
      intro h0
      rw [if_pos h0]

/-! ### Serialized traces of operations -/

/-- One operation of a serialized trace: a producer push, a reader pop_try
(`x` is the prior content of the reader's output variable), or a reader
blocking pop. -/
inductive Op (T : Type) where
  | push (v : T)
  | popTry (x : T)
  | pop

/-- Run a serialized trace.  Returns the final state, the successfully pushed
values (oldest first) and the values returned by successful pops (oldest
first).  A blocking `pop` on an empty fifo never returns, so the trace ends
there. -/
def runOps [NeZero capacity] :
    Fifo T capacity → List (Op T) → Fifo T capacity × List T × List T
  | q, [] => (q, [], [])
  | q, .push v :: rest =>
    let r := q.push v
    let out := runOps r.2 rest
    (out.1, if r.1 = .Success then v :: out.2.1 else out.2.1, out.2.2)
  | q, .popTry x :: rest =>
    let r := q.pop_try x
    let out := runOps r.2.2 rest
    (out.1, out.2.1, if r.1 = .Success then r.2.1 :: out.2.2 else out.2.2)
  | q, .pop :: rest =>
    match q.pop with
    | none => (q, [], [])
    | some (v, q2) =>
      let out := runOps q2 rest
      (out.1, out.2.1, v :: out.2.2)

/-- A state is reachable when some serialized trace from the constructed
state ends in it. -/
def Reachable [NeZero capacity] (items0 : Fin capacity → T)
    (q : Fifo T capacity) : Prop :=
  ∃ ops : List (Op T), (runOps (Fifo.init items0) ops).1 = q

/-- The main simulation lemma: along any serialized trace from an invariant
state, the invariant is preserved and the pre-state contents followed by the
pushed values equal the popped values followed by the post-state contents. -/
theorem runOps_spec [NeZero capacity] (h32 : capacity < U32) :
    ∀ (ops : List (Op T)) (q : Fifo T capacity), q.Inv →
      (runOps q ops).1.Inv ∧
      q.contents ++ (runOps q ops).2.1 =
        (runOps q ops).2.2 ++ (runOps q ops).1.contents := by
  intro ops
  induction ops with
  | nil =>
    intro q hInv
    exact ⟨hInv, by simp [runOps]⟩
  | cons op rest ih =>
    intro q hInv
    cases op with
    | push v =>
      by_cases h : capacity ≤ q.population
      · have hq : q.push v = (.Full, q) := push_full q v h
        obtain ⟨ih1, ih2⟩ := ih q hInv
        simp only [runOps, hq]
        exact ⟨ih1, by simpa using ih2⟩
      · have hlt : q.population < capacity := Nat.not_le.mp h
        have hstat : (q.push v).1 = .Success := by rw [push_not_full q v hlt]
        obtain ⟨ih1, ih2⟩ := ih (q.push v).2 (push_Inv q v hInv h32)
        simp only [runOps, hstat]
        refine ⟨ih1, ?_⟩
        simp only [eq_self_iff_true, if_true]
        calc q.contents ++ v :: (runOps (q.push v).2 rest).2.1
            = (q.contents ++ [v]) ++ (runOps (q.push v).2 rest).2.1 := by simp
          _ = ((q.push v).2).contents ++ (runOps (q.push v).2 rest).2.1 := by
              rw [contents_push q v hInv hlt h32]
          _ = (runOps (q.push v).2 rest).2.2 ++ (runOps (q.push v).2 rest).1.contents :=
              ih2
    | popTry x =>
      by_cases h : q.population = 0
      · have hq : q.pop_try x = (.Empty, x, q) := popTry_empty q x h
        obtain ⟨ih1, ih2⟩ := ih q hInv
        simp only [runOps, hq]
        exact ⟨ih1, by simpa using ih2⟩
      · have hpos : 0 < q.population := Nat.pos_of_ne_zero h
        have hstat : (q.pop_try x).1 = .Success := by rw [popTry_nonempty q x hpos]
        have hval : (q.pop_try x).2.1 = q.items q.ExtractionIndex := by
          rw [popTry_nonempty q x hpos]
        obtain ⟨ih1, ih2⟩ := ih (q.pop_try x).2.2 (popTry_Inv q x hInv h32)
        simp only [runOps, hstat]
        refine ⟨ih1, ?_⟩
        simp only [eq_self_iff_true, if_true, hval]
        rw [contents_popTry q x hInv.1 hpos h32, List.cons_append, List.cons_append]
        exact congrArg _ ih2
    | pop =>
      cases hp : q.pop with
      | none =>
        obtain ⟨-, -⟩ := ih q hInv
        simp only [runOps, hp]
        exact ⟨hInv, by simp⟩
      | some pr =>
        obtain ⟨v, q2⟩ := pr
        have hpos : 0 < q.population := by
          rcases Nat.eq_zero_or_pos q.population with h0 | h1
          · exfalso
            unfold Fifo.pop at hp
            rw [if_pos ⟨h0, hInv.2.2 h0⟩] at hp
            exact Option.noConfusion hp
          · exact h1
        have hagree := pop_agrees_popTry q v hpos
        have hval : (q.pop_try v).2.1 = q.items q.ExtractionIndex := by
          rw [popTry_nonempty q v hpos]
        obtain ⟨ih1, ih2⟩ := ih (q.pop_try v).2.2 (popTry_Inv q v hInv h32)
        simp only [runOps, hagree]
        refine ⟨ih1, ?_⟩
        simp only [hval]
        rw [contents_popTry q v hInv.1 hpos h32, List.cons_append, List.cons_append]
        exact congrArg _ ih2

/-! ### A small-step interleaving model of two concurrent producers

Each producer runs `Fifo::push` decomposed into its atomic actions, so any
interleaving of the two threads can be examined.  The two threads are named by
a `Bool`. -/

/-- The program counter of a thread inside `Fifo::push`. -/
inductive PushPc where
  | outerCheck            -- about to run line 282 (population >= capacity ?)
  | tryLock               -- about to run line 287 (TryEnterCriticalSection)
  | recheck               -- mutex held, about to run line 295 (re-test)
  | store                 -- mutex held, about to run lines 306-309
  | unlock                -- mutex held, about to run line 312 (Leave)
  | signal                -- mutex released, about to run line 315 (SetEvent)
  | ret (s : FifoStatus)  -- returned with status s
deriving DecidableEq, Repr

/-- Global state of the two-producer race: the fifo, the critical-section
owner, each thread's program counter and each thread's item argument. -/
structure PushRace (T : Type) (capacity : Nat) where
  fifo : Fifo T capacity
  lockOwner : Option Bool
  pc : Bool → PushPc
  arg : Bool → T

def setThread (pcs : Bool → PushPc) (t : Bool) (p : PushPc) : Bool → PushPc :=
  fun u => if u = t then p else pcs u

/-- One atomic step of thread `t` inside `Fifo::push` (lines 271-319).
A finished thread does nothing. -/
def raceStep [NeZero capacity] (c : PushRace T capacity) (t : Bool) :
    PushRace T capacity :=
  match c.pc t with
  | .outerCheck =>
    -- line 282: the racy unsynchronized population read
    if capacity ≤ c.fifo.population then
      { c with pc := setThread c.pc t (.ret .Full) }
    else { c with pc := setThread c.pc t .tryLock }
  | .tryLock =>
    -- line 287: TryEnterCriticalSection (re-entrant for the owner)
    match c.lockOwner with
    | some u =>
      if u = t then { c with pc := setThread c.pc t .recheck }
      else { c with pc := setThread c.pc t (.ret .Locked) }
    | none => { c with lockOwner := some t, pc := setThread c.pc t .recheck }
  | .recheck =>
    -- line 295: the re-test under the mutex; lines 298-301 on failure
    if capacity ≤ c.fifo.population then
      { c with lockOwner := none, pc := setThread c.pc t (.ret .Preempted) }
    else { c with pc := setThread c.pc t .store }
  | .store =>
    -- lines 306-309: store the item, bump the insertion index, population++
    { c with
      fifo := { c.fifo with
        items := fun j => if j = c.fifo.InsertionIndex then c.arg t
          else c.fifo.items j
        InsertionIndex := bumpIndex c.fifo.InsertionIndex
        population := uinc c.fifo.population }
      pc := setThread c.pc t .unlock }
  | .unlock =>
    -- line 312: LeaveCriticalSection
    { c with lockOwner := none, pc := setThread c.pc t .signal }
  | .signal =>
    -- line 315: SetEvent, after the mutex was released
    { c with
      fifo := { c.fifo with DataAvailableEvent := true }
      pc := setThread c.pc t (.ret .Success) }
  | .ret _ => c

/-- Run the race under a given interleaving (list of thread names). -/
def raceRun [NeZero capacity] (c : PushRace T capacity) (sched : List Bool) :
    PushRace T capacity :=
  sched.foldl raceStep c

/-- Both threads about to enter `push` on fifo state `q`. -/
def raceInit [NeZero capacity] (q : Fifo T capacity) (a b : T) :
    PushRace T capacity :=
  { fifo := q, lockOwner := none, pc := fun _ => .outerCheck
    arg := fun t => if t then a else b }

/-! #### Finite abstraction of the race control state -/

instance : Fintype FifoStatus where
  elems := ⟨↑([.Success, .Full, .Empty, .Locked, .Preempted] : List FifoStatus),
    by decide⟩
  complete := fun x => by cases x <;> decide

instance : Fintype PushPc where
  elems := ⟨↑([.outerCheck, .tryLock, .recheck, .store, .unlock, .signal,
      .ret .Success, .ret .Full, .ret .Empty, .ret .Locked,
      .ret .Preempted] : List PushPc), by decide⟩
  complete := fun x => by
    cases x with
    | ret s => cases s <;> decide
    | _ => decide

/-- 1 when a thread at this pc has already executed the store step of the
current call, 0 otherwise. -/
def wrote : PushPc → Nat
  | .unlock => 1
  | .signal => 1
  | .ret .Success => 1
  | _ => 0

/-- Whether a thread at this pc is inside the critical section. -/
def inCS : PushPc → Bool
  | .recheck => true
  | .store => true
  | .unlock => true
  | _ => false

/-- The control-state abstraction: both program counters and the lock owner. -/
abbrev RaceAbs := PushPc × PushPc × Option Bool

def raceAbs (c : PushRace T capacity) : RaceAbs :=
  (c.pc true, c.pc false, c.lockOwner)

def wroteSum (a : RaceAbs) : Nat := wrote a.1 + wrote a.2.1

/-- The abstract step: `raceStep` with the population tests
`capacity ≤ population` replaced by `1 ≤ wrote <other thread>` (justified by
the invariant `population + 1 = capacity + wroteSum`, since the stepping
thread has `wrote = 0` at both tests). -/
def aStep : RaceAbs → Bool → RaceAbs
  | (pA, pB, l), true =>
    match pA with
    | .outerCheck =>
      if 1 ≤ wrote pB then (.ret .Full, pB, l) else (.tryLock, pB, l)
    | .tryLock =>
      match l with
      | some u =>
        if u = true then (.recheck, pB, l) else (.ret .Locked, pB, l)
      | none => (.recheck, pB, some true)
    | .recheck =>
      if 1 ≤ wrote pB then (.ret .Preempted, pB, none) else (.store, pB, l)
    | .store => (.unlock, pB, l)
    | .unlock => (.signal, pB, none)
    | .signal => (.ret .Success, pB, l)
    | .ret s => (.ret s, pB, l)
  | (pA, pB, l), false =>
    match pB with
    | .outerCheck =>
      if 1 ≤ wrote pA then (pA, .ret .Full, l) else (pA, .tryLock, l)
    | .tryLock =>
      match l with
      | some u =>
        if u = false then (pA, .recheck, l) else (pA, .ret .Locked, l)
      | none => (pA, .recheck, some false)
    | .recheck =>
      if 1 ≤ wrote pA then (pA, .ret .Preempted, none) else (pA, .store, l)
    | .store => (pA, .unlock, l)
    | .unlock => (pA, .signal, none)
    | .signal => (pA, .ret .Success, l)
    | .ret s => (pA, .ret s, l)

/-- The control-state invariant of the two-producer race started on a fifo
with exactly one free slot. -/
abbrev RaceOk (a : RaceAbs) : Prop :=
  (inCS a.1 = true ↔ a.2.2 = some true) ∧
  (inCS a.2.1 = true ↔ a.2.2 = some false) ∧
  (a.1 = .store → wrote a.2.1 = 0) ∧
  (a.2.1 = .store → wrote a.1 = 0) ∧
  wroteSum a ≤ 1 ∧
  ((a.1 = .ret .Full ∨ a.1 = .ret .Preempted) → wrote a.2.1 = 1) ∧
  ((a.2.1 = .ret .Full ∨ a.2.1 = .ret .Preempted) → wrote a.1 = 1) ∧
  (a.1 = .ret .Locked →
    inCS a.2.1 = true ∨ a.2.1 = .signal ∨ a.2.1 = .ret .Success) ∧
  (a.2.1 = .ret .Locked →
    inCS a.1 = true ∨ a.1 = .signal ∨ a.1 = .ret .Success) ∧
  a.1 ≠ .ret .Empty ∧ a.2.1 ≠ .ret .Empty

/-- The property the race must end with, as a Boolean check on a control
state where both threads have returned. -/
def okFinal (a : RaceAbs) : Bool :=
  match a.1, a.2.1 with
  | .ret sA, .ret sB =>
    decide ((sA = .Success ∧ sB ≠ .Success) ∨ (sB = .Success ∧ sA ≠ .Success)) &&
    decide (sA ≠ .Success → sA = .Full ∨ sA = .Locked ∨ sA = .Preempted) &&
    decide (sB ≠ .Success → sB = .Full ∨ sB = .Locked ∨ sB = .Preempted)
  | _, _ => true

/-- Exhaustive check over all 242 abstract control states and both threads:
the abstract step preserves `RaceOk`, and `RaceOk` forces `okFinal`. -/
theorem raceOk_check : ∀ (a : RaceAbs),
    ((!decide (RaceOk a) || (decide (RaceOk (aStep a true)) &&
        decide (RaceOk (aStep a false)) && okFinal a)) = true) := by
  decide

/-- The abstract step preserves the control-state invariant. -/
theorem aStep_RaceOk (a : RaceAbs) (t : Bool) (h : RaceOk a) :
    RaceOk (aStep a t) := by
  have hb := raceOk_check a
  rw [decide_eq_true h] at hb
  simp only [Bool.not_true, Bool.false_or, Bool.and_eq_true,
    decide_eq_true_eq] at hb
  cases t
  · exact hb.1.2
  · exact hb.1.1

/-- In an invariant control state where both threads have returned, exactly
one got `Success`, and a thread that did not get `Success` got `Full`,
`Locked` or `Preempted`. -/
theorem RaceOk_final (a : RaceAbs) (sA sB : FifoStatus)
    (h : RaceOk a) (h1 : a.1 = .ret sA) (h2 : a.2.1 = .ret sB) :
    ((sA = .Success ∧ sB ≠ .Success) ∨ (sB = .Success ∧ sA ≠ .Success)) ∧
    (sA ≠ .Success → sA = .Full ∨ sA = .Locked ∨ sA = .Preempted) ∧
    (sB ≠ .Success → sB = .Full ∨ sB = .Locked ∨ sB = .Preempted) := by
  have hb := raceOk_check a
  rw [decide_eq_true h] at hb
  simp only [Bool.not_true, Bool.false_or, Bool.and_eq_true,
    decide_eq_true_eq] at hb
  have hf := hb.2
  unfold okFinal at hf
  rw [h1, h2] at hf
  simp only [Bool.and_eq_true, decide_eq_true_eq] at hf
  exact ⟨hf.1.1, hf.1.2, hf.2⟩

theorem RaceOk_init : RaceOk (.outerCheck, .outerCheck, none) := by decide

theorem wrote_outerCheck : wrote .outerCheck = 0 := rfl
theorem wrote_tryLock : wrote .tryLock = 0 := rfl
theorem wrote_recheck : wrote .recheck = 0 := rfl
theorem wrote_store : wrote .store = 0 := rfl
theorem wrote_unlock : wrote .unlock = 1 := rfl
theorem wrote_signal : wrote .signal = 1 := rfl
theorem wrote_retSuccess : wrote (.ret .Success) = 1 := rfl
theorem wrote_retFull : wrote (.ret .Full) = 0 := rfl
theorem wrote_retLocked : wrote (.ret .Locked) = 0 := rfl
theorem wrote_retPreempted : wrote (.ret .Preempted) = 0 := rfl

/-- Each concrete interleaving step is simulated by the abstract step, and
the population stays linked to the abstract write count. -/
theorem raceStep_sim [NeZero capacity] (h32 : capacity < U32)
    (c : PushRace T capacity) (t : Bool)
    (hok : RaceOk (raceAbs c))
    (hpop : c.fifo.population + 1 = capacity + wroteSum (raceAbs c)) :
    raceAbs (raceStep c t) = aStep (raceAbs c) t ∧
    (raceStep c t).fifo.population + 1 =
      capacity + wroteSum (aStep (raceAbs c) t) := by
  dsimp only [raceAbs, wroteSum] at hpop ⊢
  cases t with
  | true =>
    cases hpc : c.pc true with
    | outerCheck =>
      rw [hpc, wrote_outerCheck] at hpop
      by_cases hc : capacity ≤ c.fifo.population
      · have hw : 1 ≤ wrote (c.pc false) := by omega
        refine ⟨?_, ?_⟩ <;>
        · simp only [raceStep, hpc, aStep]
          rw [if_pos hc, if_pos hw]
          simp [setThread, wrote_outerCheck, wrote_tryLock, wrote_recheck, wrote_store, wrote_unlock, wrote_signal, wrote_retSuccess, wrote_retFull, wrote_retLocked, wrote_retPreempted]
          try omega
      · have hw : ¬ 1 ≤ wrote (c.pc false) := by omega
        refine ⟨?_, ?_⟩ <;>
        · simp only [raceStep, hpc, aStep]
          rw [if_neg hc, if_neg hw]
          simp [setThread, wrote_outerCheck, wrote_tryLock, wrote_recheck, wrote_store, wrote_unlock, wrote_signal, wrote_retSuccess, wrote_retFull, wrote_retLocked, wrote_retPreempted]
          try omega
    | tryLock =>
      rw [hpc, wrote_tryLock] at hpop
      cases hL : c.lockOwner with
      | none =>
        refine ⟨?_, ?_⟩ <;>
        · simp only [raceStep, hpc, hL, aStep]
          simp [setThread, wrote_outerCheck, wrote_tryLock, wrote_recheck, wrote_store, wrote_unlock, wrote_signal, wrote_retSuccess, wrote_retFull, wrote_retLocked, wrote_retPreempted]
          try omega
      | some u =>
        cases u with
        | true =>
          refine ⟨?_, ?_⟩ <;>
          · simp only [raceStep, hpc, hL, aStep]
            simp [setThread, wrote_outerCheck, wrote_tryLock, wrote_recheck, wrote_store, wrote_unlock, wrote_signal, wrote_retSuccess, wrote_retFull, wrote_retLocked, wrote_retPreempted]
            try omega
        | false =>
          refine ⟨?_, ?_⟩ <;>
          · simp only [raceStep, hpc, hL, aStep]
            simp [setThread, wrote_outerCheck, wrote_tryLock, wrote_recheck, wrote_store, wrote_unlock, wrote_signal, wrote_retSuccess, wrote_retFull, wrote_retLocked, wrote_retPreempted]
            try omega
    | recheck =>
      rw [hpc, wrote_recheck] at hpop
      by_cases hc : capacity ≤ c.fifo.population
      · have hw : 1 ≤ wrote (c.pc false) := by omega
        refine ⟨?_, ?_⟩ <;>
        · simp only [raceStep, hpc, aStep]
          rw [if_pos hc, if_pos hw]
          simp [setThread, wrote_outerCheck, wrote_tryLock, wrote_recheck, wrote_store, wrote_unlock, wrote_signal, wrote_retSuccess, wrote_retFull, wrote_retLocked, wrote_retPreempted]
          try omega
      · have hw : ¬ 1 ≤ wrote (c.pc false) := by omega
        refine ⟨?_, ?_⟩ <;>
        · simp only [raceStep, hpc, aStep]
          rw [if_neg hc, if_neg hw]
          simp [setThread, wrote_outerCheck, wrote_tryLock, wrote_recheck, wrote_store, wrote_unlock, wrote_signal, wrote_retSuccess, wrote_retFull, wrote_retLocked, wrote_retPreempted]
          try omega
    | store =>
      have hB : wrote (c.pc false) = 0 := hok.2.2.1 hpc
      rw [hpc, wrote_store, hB] at hpop
      have hui : uinc c.fifo.population = c.fifo.population + 1 :=
        uinc_eq (by unfold U32 at *; omega)
      refine ⟨?_, ?_⟩ <;>
      · simp only [raceStep, hpc, aStep]
        simp [setThread, wrote_outerCheck, wrote_tryLock, wrote_recheck, wrote_store, wrote_unlock, wrote_signal, wrote_retSuccess, wrote_retFull, wrote_retLocked, wrote_retPreempted]
        try omega
    | unlock =>
      rw [hpc, wrote_unlock] at hpop
      refine ⟨?_, ?_⟩ <;>
      · simp only [raceStep, hpc, aStep]
        simp [setThread, wrote_outerCheck, wrote_tryLock, wrote_recheck, wrote_store, wrote_unlock, wrote_signal, wrote_retSuccess, wrote_retFull, wrote_retLocked, wrote_retPreempted]
        try omega
    | signal =>
      rw [hpc, wrote_signal] at hpop
      refine ⟨?_, ?_⟩ <;>
      · simp only [raceStep, hpc, aStep]
        simp [setThread, wrote_outerCheck, wrote_tryLock, wrote_recheck, wrote_store, wrote_unlock, wrote_signal, wrote_retSuccess, wrote_retFull, wrote_retLocked, wrote_retPreempted]
        try omega
    | ret s =>
      rw [hpc] at hpop
      refine ⟨?_, ?_⟩
      · simp only [raceStep, hpc, aStep]
      · simp only [raceStep, hpc, aStep]
        omega
  | false =>
    cases hpc : c.pc false with
    | outerCheck =>
      rw [hpc, wrote_outerCheck] at hpop
      by_cases hc : capacity ≤ c.fifo.population
      · have hw : 1 ≤ wrote (c.pc true) := by omega
        refine ⟨?_, ?_⟩ <;>
        · simp only [raceStep, hpc, aStep]
          rw [if_pos hc, if_pos hw]
          simp [setThread, wrote_outerCheck, wrote_tryLock, wrote_recheck, wrote_store, wrote_unlock, wrote_signal, wrote_retSuccess, wrote_retFull, wrote_retLocked, wrote_retPreempted]
          try omega
      · have hw : ¬ 1 ≤ wrote (c.pc true) := by omega
        refine ⟨?_, ?_⟩ <;>
        · simp only [raceStep, hpc, aStep]
          rw [if_neg hc, if_neg hw]
          simp [setThread, wrote_outerCheck, wrote_tryLock, wrote_recheck, wrote_store, wrote_unlock, wrote_signal, wrote_retSuccess, wrote_retFull, wrote_retLocked, wrote_retPreempted]
          try omega
    | tryLock =>
      rw [hpc, wrote_tryLock] at hpop
      cases hL : c.lockOwner with
      | none =>
        refine ⟨?_, ?_⟩ <;>
        · simp only [raceStep, hpc, hL, aStep]
          simp [setThread, wrote_outerCheck, wrote_tryLock, wrote_recheck, wrote_store, wrote_unlock, wrote_signal, wrote_retSuccess, wrote_retFull, wrote_retLocked, wrote_retPreempted]
          try omega
      | some u =>
        cases u with
        | true =>
          refine ⟨?_, ?_⟩ <;>
          · simp only [raceStep, hpc, hL, aStep]
            simp [setThread, wrote_outerCheck, wrote_tryLock, wrote_recheck, wrote_store, wrote_unlock, wrote_signal, wrote_retSuccess, wrote_retFull, wrote_retLocked, wrote_retPreempted]
            try omega
        | false =>
          refine ⟨?_, ?_⟩ <;>
          · simp only [raceStep, hpc, hL, aStep]
            simp [setThread, wrote_outerCheck, wrote_tryLock, wrote_recheck, wrote_store, wrote_unlock, wrote_signal, wrote_retSuccess, wrote_retFull, wrote_retLocked, wrote_retPreempted]
            try omega
    | recheck =>
      rw [hpc, wrote_recheck] at hpop
      by_cases hc : capacity ≤ c.fifo.population
      · have hw : 1 ≤ wrote (c.pc true) := by omega
        refine ⟨?_, ?_⟩ <;>
        · simp only [raceStep, hpc, aStep]
          rw [if_pos hc, if_pos hw]
          simp [setThread, wrote_outerCheck, wrote_tryLock, wrote_recheck, wrote_store, wrote_unlock, wrote_signal, wrote_retSuccess, wrote_retFull, wrote_retLocked, wrote_retPreempted]
          try omega
      · have hw : ¬ 1 ≤ wrote (c.pc true) := by omega
        refine ⟨?_, ?_⟩ <;>
        · simp only [raceStep, hpc, aStep]
          rw [if_neg hc, if_neg hw]
          simp [setThread, wrote_outerCheck, wrote_tryLock, wrote_recheck, wrote_store, wrote_unlock, wrote_signal, wrote_retSuccess, wrote_retFull, wrote_retLocked, wrote_retPreempted]
          try omega
    | store =>
      have hB : wrote (c.pc true) = 0 := hok.2.2.2.1 hpc
      rw [hpc, wrote_store, hB] at hpop
      have hui : uinc c.fifo.population = c.fifo.population + 1 :=
        uinc_eq (by unfold U32 at *; omega)
      refine ⟨?_, ?_⟩ <;>
      · simp only [raceStep, hpc, aStep]
        simp [setThread, wrote_outerCheck, wrote_tryLock, wrote_recheck, wrote_store, wrote_unlock, wrote_signal, wrote_retSuccess, wrote_retFull, wrote_retLocked, wrote_retPreempted]
        try omega
    | unlock =>
      rw [hpc, wrote_unlock] at hpop
      refine ⟨?_, ?_⟩ <;>
      · simp only [raceStep, hpc, aStep]
        simp [setThread, wrote_outerCheck, wrote_tryLock, wrote_recheck, wrote_store, wrote_unlock, wrote_signal, wrote_retSuccess, wrote_retFull, wrote_retLocked, wrote_retPreempted]
        try omega
    | signal =>
      rw [hpc, wrote_signal] at hpop
      refine ⟨?_, ?_⟩ <;>
      · simp only [raceStep, hpc, aStep]
        simp [setThread, wrote_outerCheck, wrote_tryLock, wrote_recheck, wrote_store, wrote_unlock, wrote_signal, wrote_retSuccess, wrote_retFull, wrote_retLocked, wrote_retPreempted]
        try omega
    | ret s =>
      rw [hpc] at hpop
      refine ⟨?_, ?_⟩
      · simp only [raceStep, hpc, aStep]
      · simp only [raceStep, hpc, aStep]
        omega


/-- Invariant of the race: abstract control-state invariant plus the
population / write-count link. -/
def RaceInv [NeZero capacity] (c : PushRace T capacity) : Prop :=
  RaceOk (raceAbs c) ∧
  c.fifo.population + 1 = capacity + wroteSum (raceAbs c)

theorem raceStep_RaceInv [NeZero capacity] (h32 : capacity < U32)
    (c : PushRace T capacity) (t : Bool) (h : RaceInv c) :
    RaceInv (raceStep c t) := by
  obtain ⟨hok, hpop⟩ := h
  obtain ⟨hsim, hpop2⟩ := raceStep_sim h32 c t hok hpop
  exact ⟨hsim ▸ aStep_RaceOk (raceAbs c) t hok, hsim ▸ hpop2⟩

theorem raceRun_RaceInv [NeZero capacity] (h32 : capacity < U32) :
    ∀ (sched : List Bool) (c : PushRace T capacity),
      RaceInv c → RaceInv (raceRun c sched) := by
  intro sched
  induction sched with
  | nil => intro c h; exact h
  | cons t rest ih =>
    intro c h
    exact ih (raceStep c t) (raceStep_RaceInv h32 c t h)

theorem raceInit_RaceInv [NeZero capacity] (q : Fifo T capacity) (a b : T)
    (hpop : q.population + 1 = capacity) : RaceInv (raceInit q a b) := by
  constructor
  · exact RaceOk_init
  · simpa [raceInit, raceAbs, wroteSum, wrote] using hpop

/-! ### The claims -/

/-- Every reachable state satisfies the structural invariant. -/
theorem Reachable_Inv [NeZero capacity] {items0 : Fin capacity → T}
    {q : Fifo T capacity} (h32 : capacity < U32) (hr : Reachable items0 q) :
    q.Inv := by
  obtain ⟨ops, hops⟩ := hr
  have h := (runOps_spec h32 ops (Fifo.init items0) (Fifo.init_Inv items0)).1
  rwa [hops] at h

/-- Claim C1: along any serialized trace of push/pop_try/pop operations from
the constructed state, the values returned by successful pops are exactly the
successfully pushed values in push order: the pushed list equals the popped
list followed by the items still queued (so the popped list is an initial
segment of the pushed list, in the same order). -/
theorem fifo_order [NeZero capacity] (items0 : Fin capacity → T)
    (h32 : capacity < U32) (ops : List (Op T)) :
    (runOps (Fifo.init items0) ops).2.1 =
      (runOps (Fifo.init items0) ops).2.2 ++
        (runOps (Fifo.init items0) ops).1.contents := by
  have h := (runOps_spec h32 ops (Fifo.init items0) (Fifo.init_Inv items0)).2
  rw [contents_init] at h
  simpa using h

theorem fifo_order_witness :
    (5 : Nat) < U32 ∧
    (runOps (Fifo.init fun _ => (0:Nat) : Fifo Nat 5)
        [.push 7, .push 8, .popTry 0]).2.1 =
      (runOps (Fifo.init fun _ => (0:Nat) : Fifo Nat 5)
          [.push 7, .push 8, .popTry 0]).2.2 ++
        (runOps (Fifo.init fun _ => (0:Nat) : Fifo Nat 5)
          [.push 7, .push 8, .popTry 0]).1.contents :=
  ⟨by decide,
    fifo_order (fun _ => (0:Nat) : Fin 5 → Nat) (by decide)
      [.push 7, .push 8, .popTry 0]⟩

/-- Claim C2: along any serialized trace of push/pop_try/pop operations from
the constructed state, `0 ≤ population ≤ capacity` always holds (`0 ≤` is
automatic for `Nat`; a decrement from 0 would instead surface as the huge
wrapped value `2^32 - 1`, which this bound also excludes). -/
theorem population_bounded [NeZero capacity] (items0 : Fin capacity → T)
    (h32 : capacity < U32) (q : Fifo T capacity)
    (hr : Reachable items0 q) : q.population ≤ capacity :=
  (Reachable_Inv h32 hr).1

theorem population_bounded_witness :
    (5 : Nat) < U32 ∧
    Reachable (fun _ => (0:Nat)) (Fifo.init fun _ => (0:Nat) : Fifo Nat 5) ∧
    (Fifo.init fun _ => (0:Nat) : Fifo Nat 5).population ≤ 5 :=
  ⟨by decide, ⟨[], rfl⟩,
    population_bounded (fun _ => (0:Nat)) (by decide)
      (Fifo.init fun _ => (0:Nat) : Fifo Nat 5) ⟨[], rfl⟩⟩

/-- Claim C3: `push` on a state with `population = capacity` returns `Full`
and changes nothing; `pop_try` on a state with `population = 0` returns
`Empty` without touching the output location or the state (and `pop_try`
never blocks by construction). -/
theorem push_full_popTry_empty [NeZero capacity]
    (q r : Fifo T capacity) (v x : T)
    (hfull : q.population = capacity) (hempty : r.population = 0) :
    q.push v = (.Full, q) ∧ r.pop_try x = (.Empty, x, r) :=
  ⟨push_full q v (le_of_eq hfull.symm), popTry_empty r x hempty⟩

/-- A full fifo state of capacity 5, used as a witness input. -/
def fullFifo : Fifo Nat 5 :=
  { items := fun _ => 0
    InsertionIndex := 0
    ExtractionIndex := 0
    population := 5
    DataAvailableEvent := true }

theorem push_full_popTry_empty_witness :
    fullFifo.push 7 = (.Full, fullFifo) ∧
    (Fifo.init fun _ => (0:Nat) : Fifo Nat 5).pop_try 9 =
      (.Empty, 9, Fifo.init fun _ => (0:Nat)) :=
  push_full_popTry_empty fullFifo _ 7 9 rfl rfl

/-- Claim C4: when push succeeds (`population < capacity` in a serialized
execution) it stores the item at `slot[InsertionIndex]`, advances
`InsertionIndex` to `(InsertionIndex + 1) % capacity`, increments the
population by 1, signals the readiness event and returns `Success`; moreover,
in the interleaved model the `unlock` step (line 312) releases the mutex
without touching the event, and only the subsequent `signal` step (line 315)
sets the event, i.e. the signalling happens after the lock is released. -/
theorem push_success_effects [NeZero capacity] (q : Fifo T capacity)
    (item : T) (h : q.population < capacity) (h32 : capacity < U32) :
    ((q.push item).1 = .Success ∧
     (q.push item).2.items q.InsertionIndex = item ∧
     (q.push item).2.InsertionIndex.val = (q.InsertionIndex.val + 1) % capacity ∧
     (q.push item).2.population = q.population + 1 ∧
     (q.push item).2.DataAvailableEvent = true ∧
     (q.push item).2.ExtractionIndex = q.ExtractionIndex) ∧
    (∀ (c : PushRace T capacity) (t : Bool), c.pc t = .unlock →
      (raceStep c t).fifo.DataAvailableEvent = c.fifo.DataAvailableEvent ∧
      (raceStep c t).lockOwner = none ∧
      (raceStep c t).pc t = .signal) ∧
    (∀ (c : PushRace T capacity) (t : Bool), c.pc t = .signal →
      (raceStep c t).fifo.DataAvailableEvent = true ∧
      (raceStep c t).lockOwner = c.lockOwner ∧
      (raceStep c t).pc t = .ret .Success) := by
  refine ⟨?_, ?_, ?_⟩
  · rw [push_not_full q item h]
    refine ⟨rfl, ?_, rfl, ?_, rfl, rfl⟩
    · dsimp only
      rw [if_pos rfl]
    · dsimp only
      exact uinc_eq (by unfold U32 at *; omega)
  · intro c t hpc
    refine ⟨?_, ?_, ?_⟩ <;> simp [raceStep, hpc, setThread]
  · intro c t hpc
    refine ⟨?_, ?_, ?_⟩ <;> simp [raceStep, hpc, setThread]

theorem push_success_effects_witness :
    (Fifo.init fun _ => (0:Nat) : Fifo Nat 5).population < 5 ∧
    ((Fifo.init fun _ => (0:Nat) : Fifo Nat 5).push 7).1 = .Success ∧
    ((Fifo.init fun _ => (0:Nat) : Fifo Nat 5).push 7).2.population = 1 :=
  ⟨by decide,
    (push_success_effects (Fifo.init fun _ => (0:Nat) : Fifo Nat 5) 7
      (by decide) (by decide)).1.1,
    (push_success_effects (Fifo.init fun _ => (0:Nat) : Fifo Nat 5) 7
      (by decide) (by decide)).1.2.2.2.1⟩

/-- Claim C5: when `population > 0` (and the stored counter value is a
32-bit unsigned, i.e. `population < 2^32`), `pop_try` returns the slot at
`ExtractionIndex` with `Success`, advances `ExtractionIndex` to
`(ExtractionIndex + 1) % capacity`, decrements the population by 1, and
resets the readiness event if and only if the population is now 0 (otherwise
the event is left unchanged); the slot array and `InsertionIndex` are
untouched. -/
theorem popTry_success_effects [NeZero capacity] (q : Fifo T capacity)
    (x : T) (h : 0 < q.population) (h32 : q.population < U32) :
    (q.pop_try x).1 = .Success ∧
    (q.pop_try x).2.1 = q.items q.ExtractionIndex ∧
    (q.pop_try x).2.2.ExtractionIndex.val =
      (q.ExtractionIndex.val + 1) % capacity ∧
    (q.pop_try x).2.2.population = q.population - 1 ∧
    ((q.pop_try x).2.2.DataAvailableEvent =
      if q.population - 1 = 0 then false else q.DataAvailableEvent) ∧
    (q.pop_try x).2.2.InsertionIndex = q.InsertionIndex ∧
    (q.pop_try x).2.2.items = q.items := by
  rw [popTry_nonempty q x h]
  have hdec : udec q.population = q.population - 1 := udec_eq h h32
  refine ⟨rfl, rfl, rfl, ?_, ?_, rfl, rfl⟩
  · exact hdec
  · dsimp only
    rw [hdec]

theorem popTry_success_effects_witness :
    0 < fullFifo.population ∧ fullFifo.population < U32 ∧
    (fullFifo.pop_try 3).1 = .Success ∧
    (fullFifo.pop_try 3).2.2.population = 4 :=
  ⟨by decide, by decide,
    (popTry_success_effects fullFifo 3 (by decide) (by decide)).1,
    (popTry_success_effects fullFifo 3 (by decide) (by decide)).2.2.2.1⟩

/-- Claim C6 as stated is false on the code: the state reached by pushing 7
onto the empty fifo is reachable, a push of 8 succeeds there, but the pop
that follows returns the oldest item 7, not the just-pushed 8. -/
theorem roundtrip_counterexample :
    Reachable (fun _ => (0:Nat))
      ((Fifo.init fun _ => (0:Nat) : Fifo Nat 5).push 7).2 ∧
    (((Fifo.init fun _ => (0:Nat) : Fifo Nat 5).push 7).2.push 8).1 =
      .Success ∧
    ((((Fifo.init fun _ => (0:Nat) : Fifo Nat 5).push 7).2.push 8).2.pop_try
      0).2.1 = 7 ∧
    ((((Fifo.init fun _ => (0:Nat) : Fifo Nat 5).push 7).2.push 8).2.pop_try
      0).2.1 ≠ 8 :=
  ⟨⟨[.push 7], rfl⟩, by decide, by decide, by decide⟩

/-- Claim C6, amended: for every reachable state in which a push of `X`
succeeds, pushing `X` and then popping once returns the population to its
pre-push value; the popped value is exactly `X` when the fifo was empty
before the push (in general the pop returns the oldest queued item). -/
theorem roundtrip_amended [NeZero capacity] (items0 : Fin capacity → T)
    (q : Fifo T capacity) (X x : T) (h32 : capacity < U32)
    (hr : Reachable items0 q) (hs : (q.push X).1 = .Success) :
    ((q.push X).2.pop_try x).1 = .Success ∧
    ((q.push X).2.pop_try x).2.2.population = q.population ∧
    (q.population = 0 → ((q.push X).2.pop_try x).2.1 = X) := by
  have hInv := Reachable_Inv h32 hr
  have hlt : q.population < capacity := by
    by_contra hc
    rw [push_full q X (Nat.not_lt.mp hc)] at hs
    exact FifoStatus.noConfusion hs
  have hq1pop : (q.push X).2.population = q.population + 1 := by
    rw [push_not_full q X hlt]
    exact uinc_eq (by unfold U32 at *; omega)
  have hq1pos : 0 < (q.push X).2.population := by rw [hq1pop]; omega
  have h1 := popTry_nonempty (q.push X).2 x hq1pos
  refine ⟨?_, ?_, ?_⟩
  · rw [h1]
  · rw [h1]
    dsimp only
    rw [hq1pop, udec_eq (by omega) (by unfold U32 at *; omega)]
    omega
  · intro h0
    rw [h1]
    dsimp only
    rw [push_not_full q X hlt]
    dsimp only
    rw [if_pos]
    refine Fin.ext ?_
    rw [hInv.2.1, h0, Nat.add_zero, Nat.mod_eq_of_lt q.ExtractionIndex.isLt]

theorem roundtrip_amended_witness :
    (5:Nat) < U32 ∧
    Reachable (fun _ => (0:Nat)) (Fifo.init fun _ => (0:Nat) : Fifo Nat 5) ∧
    ((Fifo.init fun _ => (0:Nat) : Fifo Nat 5).push 7).1 = .Success ∧
    (((Fifo.init fun _ => (0:Nat) : Fifo Nat 5).push 7).2.pop_try 0).1 =
      .Success ∧
    (((Fifo.init fun _ => (0:Nat) : Fifo Nat 5).push 7).2.pop_try
      0).2.2.population =
      (Fifo.init fun _ => (0:Nat) : Fifo Nat 5).population ∧
    ((Fifo.init fun _ => (0:Nat) : Fifo Nat 5).population = 0 →
      (((Fifo.init fun _ => (0:Nat) : Fifo Nat 5).push 7).2.pop_try 0).2.1 = 7) :=
  ⟨by decide, ⟨[], rfl⟩,
    (push_success_effects (Fifo.init fun _ => (0:Nat) : Fifo Nat 5) 7
      (by decide) (by decide)).1.1,
    (roundtrip_amended (fun _ => (0:Nat) : Fin 5 → Nat) _ 7 0 (by decide)
      ⟨[], rfl⟩ (by decide)).1,
    (roundtrip_amended (fun _ => (0:Nat) : Fin 5 → Nat) _ 7 0 (by decide)
      ⟨[], rfl⟩ (by decide)).2.1,
    (roundtrip_amended (fun _ => (0:Nat) : Fin 5 → Nat) _ 7 0 (by decide)
      ⟨[], rfl⟩ (by decide)).2.2⟩

/-- Claim C7: on every state with `population > 0`, the blocking `pop`
returns and performs exactly the state transformation of `pop_try`'s success
path: the same item is returned and the whole resulting state (slots,
indices, population, readiness event) is identical. -/
theorem pop_matches_popTry [NeZero capacity] (q : Fifo T capacity) (x : T)
    (h : 0 < q.population) :
    ∃ v q2, q.pop = some (v, q2) ∧ q.pop_try x = (.Success, v, q2) := by
  refine ⟨(q.pop_try x).2.1, (q.pop_try x).2.2, pop_agrees_popTry q x h, ?_⟩
  rw [popTry_nonempty q x h]

theorem pop_matches_popTry_witness :
    0 < ((Fifo.init fun _ => (0:Nat) : Fifo Nat 5).push 7).2.population ∧
    ∃ v q2,
      ((Fifo.init fun _ => (0:Nat) : Fifo Nat 5).push 7).2.pop =
        some (v, q2) ∧
      ((Fifo.init fun _ => (0:Nat) : Fifo Nat 5).push 7).2.pop_try 0 =
        (.Success, v, q2) :=
  ⟨by decide,
    pop_matches_popTry ((Fifo.init fun _ => (0:Nat) : Fifo Nat 5).push 7).2 0
      (by decide)⟩

/-- An anomalous but reachable fifo state: empty, yet the manual-reset event
is signaled.  It arises when a producer is preempted between its
`LeaveCriticalSection` (line 312) and its `SetEvent` (line 315): the single
consumer pops the pushed item (population back to 0, `ResetEvent` at line
351), and the producer then runs its pending `SetEvent`. -/
def emptySignaled : Fifo Nat 5 :=
  { items := fun _ => 99
    InsertionIndex := 0
    ExtractionIndex := 0
    population := 0
    DataAvailableEvent := true }

/-- Claim C8 is violated by the code: `pop` does not re-verify the
population after the wait returns.  On `emptySignaled` the wait at line 373
returns immediately (the event is signaled), and lines 383-392 dequeue from
the empty fifo: `pop` returns the stale slot value 99 and the unsigned
population underflows to `2^32 - 1`. -/
theorem pop_no_recheck_after_wake :
    emptySignaled.population = 0 ∧
    Option.map (fun r => (r.1, r.2.population)) emptySignaled.pop =
      some (99, U32 - 1) :=
  ⟨rfl, rfl⟩

/-- Claim C9: for any interleaving of two producers pushing into a fifo with
exactly one free slot, if both complete, exactly one of them gets `Success`
and the other gets `Full`, `Locked` or `Preempted` - never both `Success`. -/
theorem race_one_success [NeZero capacity] (h32 : capacity < U32)
    (q : Fifo T capacity) (hpop : q.population + 1 = capacity) (a b : T)
    (sched : List Bool) (sA sB : FifoStatus)
    (hA : (raceRun (raceInit q a b) sched).pc true = .ret sA)
    (hB : (raceRun (raceInit q a b) sched).pc false = .ret sB) :
    ((sA = .Success ∧ sB ≠ .Success) ∨ (sB = .Success ∧ sA ≠ .Success)) ∧
    (sA ≠ .Success → sA = .Full ∨ sA = .Locked ∨ sA = .Preempted) ∧
    (sB ≠ .Success → sB = .Full ∨ sB = .Locked ∨ sB = .Preempted) := by
  have hinv :=
    raceRun_RaceInv h32 sched (raceInit q a b) (raceInit_RaceInv q a b hpop)
  exact RaceOk_final (raceAbs (raceRun (raceInit q a b) sched)) sA sB
    hinv.1 hA hB

/-- A fifo of capacity 5 with one free slot, used as a race witness input. -/
def almostFull : Fifo Nat 5 :=
  { items := fun _ => 0
    InsertionIndex := 4
    ExtractionIndex := 0
    population := 4
    DataAvailableEvent := true }

theorem race_one_success_witness :
    (5:Nat) < U32 ∧ almostFull.population + 1 = 5 ∧
    (raceRun (raceInit almostFull 7 8)
      [true, true, true, true, true, true, false]).pc true = .ret .Success ∧
    (raceRun (raceInit almostFull 7 8)
      [true, true, true, true, true, true, false]).pc false = .ret .Full ∧
    (((.Success : FifoStatus) = .Success ∧ (.Full : FifoStatus) ≠ .Success) ∨
      ((.Full : FifoStatus) = .Success ∧ (.Success : FifoStatus) ≠ .Success)) :=
  ⟨by decide, by decide, by decide, by decide,
    (race_one_success (by decide) almostFull (by decide) 7 8
      [true, true, true, true, true, true, false] .Success .Full
      (by decide) (by decide)).1⟩

/-- Claim C10: on a state with `population = 0`, `pop_try` returns `Empty`
and leaves both the caller's output location (`x` is returned unchanged) and
the entire fifo state untouched. -/
theorem popTry_empty_frame [NeZero capacity] (q : Fifo T capacity) (x : T)
    (h : q.population = 0) : q.pop_try x = (.Empty, x, q) :=
  popTry_empty q x h

theorem popTry_empty_frame_witness :
    (Fifo.init fun _ => (0:Nat) : Fifo Nat 5).population = 0 ∧
    (Fifo.init fun _ => (0:Nat) : Fifo Nat 5).pop_try 42 =
      (.Empty, 42, Fifo.init fun _ => (0:Nat)) :=
  ⟨rfl, popTry_empty_frame (Fifo.init fun _ => (0:Nat) : Fifo Nat 5) 42 rfl⟩
